import Mathlib

/-!
Verification of the core of `ffprog` against its specification.

The development shallowly embeds the four core components of the program:

* `Arr`       — the bounded ring buffer of `src/array.rs` (`Array<T, N>`);
* the progress stream parser of `src/ffmpeg.rs`;
* the rolling aggregate views of `src/values.rs`;
* the session snapshot codec of `src/stats.rs`.

Machine integers (`u64`, `u32`, `u8`) are modelled as `Nat`, `i64` as `Int`,
and `f64` as `ℚ` (exact rational arithmetic; the IEEE special values
`inf`/`nan` are outside the model).  `std::time::Duration` is modelled as a
`Nat` of total nanoseconds and `time::Duration` as an `Int` of total
nanoseconds.
-/

namespace FFprog

/-! ## Bounded ring buffer (`src/array.rs`)

`Array<T, const N: usize>` holds a backing store `buf: [T; N]` and a logical
length `len`.  The backing array is modelled as a `List T`; well-formed
values (`Arr.wf`) have `buf.length = N` and `len ≤ N`, matching the Rust
type invariant. -/

structure Arr (N : Nat) (T : Type) where
  buf : List T
  len : Nat
deriving DecidableEq

/-- `Array::new(default)`: backing store filled with `default`, length 0. -/
def Arr.new (N : Nat) {T : Type} (dflt : T) : Arr N T :=
  ⟨List.replicate N dflt, 0⟩

/-- `Array::push`.  The `N >= 2` overwrite branch performs
`buf.copy_within(1..N, 0)` followed by `buf[N - 1] = value`, which on a
backing list of length `N` is exactly `buf.tail ++ [value]`. -/
def Arr.push {T : Type} : {N : Nat} → Arr N T → T → Arr N T
  | 0, a, _ => a
  | 1, a, v => ⟨a.buf.set 0 v, 1⟩
  | n + 2, a, v =>
    if a.len < n + 2 then
      ⟨a.buf.set a.len v, a.len + 1⟩
    else
      ⟨a.buf.tail ++ [v], a.len⟩

/-- `Array::as_slice`: `&buf[..len]`. -/
def Arr.as_slice {N : Nat} {T : Type} (a : Arr N T) : List T :=
  a.buf.take a.len

/-- `Array::first`.  The parameter `tdflt` models the value produced by
`T::default()`; the Rust code returns it for capacity 0 or an empty buffer
and otherwise reads `buf[0]`. -/
def Arr.first {T : Type} : {N : Nat} → Arr N T → T → T
  | 0, _, tdflt => tdflt
  | _ + 1, a, tdflt => if 0 < a.len then a.buf.getD 0 tdflt else tdflt

/-- `Array::last`.  As with `Arr.first`, `tdflt` models `T::default()`;
the non-empty case reads `buf[len - 1]`. -/
def Arr.last {T : Type} : {N : Nat} → Arr N T → T → T
  | 0, _, tdflt => tdflt
  | _ + 1, a, tdflt => if 0 < a.len then a.buf.getD (a.len - 1) tdflt else tdflt

/-- Pushing a whole sequence of values, one `push` per element. -/
def Arr.pushAll {N : Nat} {T : Type} (a : Arr N T) (vs : List T) : Arr N T :=
  vs.foldl Arr.push a

/-- Well-formedness: the backing store has exactly `N` slots and the logical
length never exceeds the capacity. -/
def Arr.wf {N : Nat} {T : Type} (a : Arr N T) : Prop :=
  a.buf.length = N ∧ a.len ≤ N

instance {N : Nat} {T : Type} (a : Arr N T) : Decidable a.wf := by
  unfold Arr.wf; infer_instance

/-! ## Progress stream parser (`src/ffmpeg.rs`)

Input lines, keys and values are modelled as `List Char` (a Rust `&str`).
The `str` methods the parser uses (`trim`, `split_once`, `strip_suffix`,
`parse`) are modelled below. -/

/-- `str::trim` (the stream is ASCII, so ASCII whitespace suffices). -/
def trimChars (l : List Char) : List Char :=
  ((l.dropWhile Char.isWhitespace).reverse.dropWhile Char.isWhitespace).reverse

/-- `str::split_once(sep)`: split around the first occurrence of `sep`,
`none` when `sep` does not occur. -/
def splitOnce (sep : Char) : List Char → Option (List Char × List Char)
  | [] => none
  | c :: rest =>
    if c = sep then some ([], rest)
    else (splitOnce sep rest).map fun q => (c :: q.1, q.2)

/-- `str::strip_suffix(sfx).unwrap_or(self)`: remove a trailing occurrence
of `sfx` if present, otherwise keep the string unchanged. -/
def stripSfx (sfx l : List Char) : List Char :=
  if sfx.isSuffixOf l then l.take (l.length - sfx.length) else l

/-- Value of a digit string (most significant first). -/
def digitsVal (l : List Char) : Nat :=
  l.foldl (fun acc c => acc * 10 + (c.toNat - 48)) 0

/-- All characters are ASCII digits. -/
def allDigits (l : List Char) : Bool :=
  l.all Char.isDigit

/-- `str::parse::<u64>()`: an optional leading `+`, then one or more ASCII
digits, with values past `u64::MAX` rejected as overflow. -/
def parseU64 (l : List Char) : Option Nat :=
  let l := if l.head? = some '+' then l.tail else l
  if l ≠ [] ∧ allDigits l then
    if digitsVal l < 2 ^ 64 then some (digitsVal l) else none
  else none

/-- Split a float literal at the first exponent marker `e`/`E`. -/
def splitExp : List Char → List Char × Option (List Char)
  | [] => ([], none)
  | c :: rest =>
    if c = 'e' ∨ c = 'E' then ([], some rest)
    else
      let q := splitExp rest
      (c :: q.1, q.2)

/-- Mantissa of a float literal: `digits [. digits]` with at least one digit
on either side of the optional point. -/
def parseMantissa (l : List Char) : Option ℚ :=
  match splitOnce '.' l with
  | none => if l ≠ [] ∧ allDigits l then some (digitsVal l) else none
  | some (ip, fp) =>
    if (ip ≠ [] ∨ fp ≠ []) ∧ allDigits ip ∧ allDigits fp then
      some ((digitsVal ip : ℚ) + (digitsVal fp : ℚ) / 10 ^ fp.length)
    else none

/-- Exponent of a float literal: optional sign, then one or more digits. -/
def parseExp (l : List Char) : Option Int :=
  let s : Int := if l.head? = some '-' then -1 else 1
  let l := if l.head? = some '+' ∨ l.head? = some '-' then l.tail else l
  if l ≠ [] ∧ allDigits l then some (s * digitsVal l) else none

/-- `str::parse::<f64>()` modelled exactly over `ℚ`: optional sign,
mantissa, optional decimal exponent.  The IEEE values `inf`/`infinity`/
`nan` have no rational counterpart and are outside the model. -/
def parseF64 (l : List Char) : Option ℚ :=
  let s : ℚ := if l.head? = some '-' then -1 else 1
  let l := if l.head? = some '+' ∨ l.head? = some '-' then l.tail else l
  let me := splitExp l
  (parseMantissa me.1).bind fun q =>
    match me.2 with
    | none => some (s * q)
    | some ex => (parseExp ex).map fun n => s * q * (10 : ℚ) ^ n

/-- `std::time::Duration`, modelled as total nanoseconds. -/
abbrev StdDuration := Nat

/-- `parse_time` from `src/ffmpeg.rs`: `HH:MM:SS.ffffff`, hours, minutes,
seconds and the microsecond fraction all parsed as `u64`, combined as
`Duration::from_secs(h * 3600 + m * 60 + s) + Duration::from_micros(us)`. -/
def parse_time (value : List Char) : Option StdDuration := do
  let p1 ← splitOnce ':' value
  let p2 ← splitOnce ':' p1.2
  let p3 ← splitOnce '.' p2.2
  let h ← parseU64 p1.1
  let m ← parseU64 p2.1
  let s ← parseU64 p3.1
  let us ← parseU64 p3.2
  pure ((h * 3600 + m * 60 + s) * 1000000000 + us * 1000)

/-- The `Progress` record of `src/ffmpeg.rs` (one snapshot per epoch). -/
structure Progress where
  frame : Nat
  fps : ℚ
  bitrate : Nat
  total_size : Nat
  out_time_us : Nat
  out_time_ms : Nat
  out_time : StdDuration
  dup_frames : Nat
  drop_frames : Nat
  speed : ℚ
deriving DecidableEq

/-- `Progress::default()`: every field zero. -/
def Progress.default : Progress :=
  ⟨0, 0, 0, 0, 0, 0, 0, 0, 0, 0⟩

/-- Rust `as u64` applied to an `f64`: truncate toward zero, saturating to
`[0, u64::MAX]`. -/
def f64AsU64 (q : ℚ) : Nat :=
  if q ≤ 0 then 0 else min (Int.toNat ⌊q⌋) (2 ^ 64 - 1)

/-- `parse_kv` from `src/ffmpeg.rs`.  `none` models `Err(_)`; `some (b, p)`
models `Ok(b)` with `p` the (possibly updated) accumulating record. -/
def parse_kv (p : Progress) (key value : List Char) : Option (Bool × Progress) :=
  let value := trimChars value
  if key = "frame".data then
    (parseU64 value).map fun n => (false, { p with frame := n })
  else if key = "fps".data then
    (parseF64 value).map fun q => (false, { p with fps := q })
  else if key = "bitrate".data then
    (parseF64 (stripSfx "kbits/s".data value)).map fun q =>
      (false, { p with bitrate := f64AsU64 (q * 1000) })
  else if key = "total_size".data then
    (parseU64 value).map fun n => (false, { p with total_size := n })
  else if key = "out_time_us".data then
    (parseU64 value).map fun n => (false, { p with out_time_us := n })
  else if key = "out_time_ms".data then
    (parseU64 value).map fun n => (false, { p with out_time_ms := n })
  else if key = "out_time".data then
    (parse_time value).map fun d => (false, { p with out_time := d })
  else if key = "dup_frames".data then
    (parseU64 value).map fun n => (false, { p with dup_frames := n })
  else if key = "drop_frames".data then
    (parseU64 value).map fun n => (false, { p with drop_frames := n })
  else if key = "speed".data then
    (parseF64 (stripSfx ['x'] value)).map fun q => (false, { p with speed := q })
  else if key = "progress".data then
    some (true, p)
  else
    some (false, p)

/-- Result of one `ProgressIter::next` call: `record` models
`Some(Ok(progress))`, `perror` models `Some(Err(_))`, `eof` models `None`
after a clean child exit. -/
inductive ParseOutcome
  | record (p : Progress)
  | perror
  | eof
deriving DecidableEq

/-- `ProgressIter::next`, with the child's byte stream pre-split into the
lines `read_line` would deliver.  Process reaping (`finish_process`) is
outside the model; end of input yields `eof`.  Returns the outcome and the
lines not yet consumed. -/
def nextProgress (p : Progress) : List (List Char) → ParseOutcome × List (List Char)
  | [] => (.eof, [])
  | line :: rest =>
    match splitOnce '=' (trimChars line) with
    | none => nextProgress p rest
    | some kv =>
      match parse_kv p kv.1 kv.2 with
      | none => (.perror, rest)
      | some (true, p') => (.record p', rest)
      | some (false, p') => nextProgress p' rest

/-- The keys `parse_kv` recognizes, including the `progress` sentinel. -/
def recognizedKeys : List (List Char) :=
  ["frame".data, "fps".data, "bitrate".data, "total_size".data,
   "out_time_us".data, "out_time_ms".data, "out_time".data,
   "dup_frames".data, "drop_frames".data, "speed".data, "progress".data]

/-! ## Rolling aggregate views (`src/values.rs`) -/

/-- `f64::round`: round half away from zero. -/
def rustRound (q : ℚ) : Int :=
  if q < 0 then -⌊-q + 1 / 2⌋ else ⌊q + 1 / 2⌋

/-- `(value * 100.0).round() as u64` from `SparklineValues::update`:
round, then cast with `as u64` (saturating at the ends). -/
def roundAsU64 (q : ℚ) : Nat :=
  let r := rustRound q
  if r < 0 then 0 else min r.toNat (2 ^ 64 - 1)

/-- `f64::MAX`, the largest finite double, as an exact rational. -/
def f64MAX : ℚ := 2 ^ 1024 - 2 ^ 971

/-- `SparklineValues` (single-series view); the `labeler` closure is
rendering-only and outside the model. -/
structure SparklineValues where
  history : Arr 500 Nat
  max : Nat
  current : ℚ
deriving DecidableEq

/-- `SparklineValues::new`. -/
def SparklineValues.new : SparklineValues :=
  ⟨Arr.new 500 0, 0, 0⟩

/-- `SparklineValues::update`. -/
def SparklineValues.update (s : SparklineValues) (value : ℚ) : SparklineValues :=
  let v := roundAsU64 (value * 100)
  { history := s.history.push v, max := Max.max s.max v, current := value }

/-- Feed a whole sequence of values to a sparkline view, latest last. -/
def applySpark (vs : List ℚ) : SparklineValues :=
  vs.foldl SparklineValues.update SparklineValues.new

/-- `ChartValues` (dual-series view); the two-element baseline array
`[(f64, f64); 2]` is modelled as a pair of points. -/
structure ChartValues where
  history : Arr 1000 (ℚ × ℚ)
  baseline : (ℚ × ℚ) × (ℚ × ℚ)
  current : ℚ
  min : ℚ
  max : ℚ
deriving DecidableEq

/-- `ChartValues::new(baseline)`: `Array::default()` fills the backing
store with `(0.0, 0.0)` and length 0. -/
def ChartValues.new (baseline : ℚ) : ChartValues :=
  ⟨⟨List.replicate 1000 (0, 0), 0⟩, ((0, baseline), (0, baseline)), 0, 0, 0⟩

/-- `ChartValues::update`: push `(last x + 1, value)`, re-span the baseline
to the retained window, then rescan the window for min and max starting
from `f64::MAX` and `0.0` respectively. -/
def ChartValues.update (s : ChartValues) (value : ℚ) : ChartValues :=
  let h := s.history.push ((s.history.last (0, 0)).1 + 1, value)
  let b := (((h.first (0, 0)).1, s.baseline.1.2), ((h.last (0, 0)).1, s.baseline.2.2))
  let mn := h.as_slice.foldl (fun m q => Min.min m q.2) f64MAX
  let mx := h.as_slice.foldl (fun m q => Max.max m q.2) 0
  { history := h, baseline := b, current := value, min := mn, max := mx }

/-- Feed a whole sequence of values to a chart view, latest last. -/
def applyChart (b : ℚ) (vs : List ℚ) : ChartValues :=
  vs.foldl ChartValues.update (ChartValues.new b)

/-- Specification-side predicate: `q` is the minimum of the list. -/
def isMinOf (q : ℚ) (l : List ℚ) : Prop :=
  q ∈ l ∧ ∀ x ∈ l, q ≤ x

/-- Specification-side predicate: `q` is the maximum of the list. -/
def isMaxOf {α : Type} [LinearOrder α] (q : α) (l : List α) : Prop :=
  q ∈ l ∧ ∀ x ∈ l, x ≤ q

/-! ## Session snapshot codec (`src/stats.rs`)

The `bincode` layer is modelled at the granularity of the primitive values
the derived `Encode`/`Decode` implementations emit and consume, as a stream
of `Tok` tokens; byte serialization of the primitives themselves is the
`bincode` library's contract and outside the repository.  `gzip`
compression is a lossless external layer and likewise outside the model. -/

/-- `time::Duration`, modelled as total nanoseconds. -/
abbrev TimeDuration := Int

/-- `time::Duration::whole_seconds()`: truncated division (toward zero). -/
def wholeSeconds (d : TimeDuration) : Int :=
  d.tdiv 1000000000

/-- `time::Duration::subsec_nanoseconds()`: remainder carrying the sign of
the whole value. -/
def subsecNanoseconds (d : TimeDuration) : Int :=
  d.tmod 1000000000

/-- `ffprobe::Format` (import metadata).  `tags` models the
`BTreeMap<String, String>` as its entries in ascending key order. -/
structure Format where
  filename : String
  nb_streams : Nat
  nb_programs : Nat
  format_name : String
  format_long_name : Option String
  start_time : TimeDuration
  duration : TimeDuration
  size : Nat
  bit_rate : Nat
  probe_score : Nat
  tags : List (String × String)
deriving DecidableEq

/-- `Stats`: import metadata plus the full session history.  The Rust field
`import` is a reserved word in Lean and is named `imp` here. -/
structure Stats where
  imp : Format
  history : List (TimeDuration × Progress)
deriving DecidableEq

/-- `FormatV1`, the stored shape of `Format`. -/
structure FormatV1 where
  filename : String
  nb_streams : Nat
  nb_programs : Nat
  format_name : String
  format_long_name : Option String
  start_time : TimeDuration
  duration : TimeDuration
  size : Nat
  bit_rate : Nat
  probe_score : Nat
  tags : List (String × String)
deriving DecidableEq

/-- `ProgressV1`, the stored shape of `Progress`; `out_time` is carried as
a `BincodeDuration` wrapping `time::Duration`. -/
structure ProgressV1 where
  frame : Nat
  fps : ℚ
  bitrate : Nat
  total_size : Nat
  out_time_us : Nat
  out_time_ms : Nat
  out_time : TimeDuration
  dup_frames : Nat
  drop_frames : Nat
  speed : ℚ
deriving DecidableEq

/-- The versioned container (`enum Version`), currently one variant. -/
inductive Version
  | V1 (imp : FormatV1) (history : List (TimeDuration × ProgressV1))
deriving DecidableEq

/-- `From<Format> for FormatV1`. -/
def formatToV1 (f : Format) : FormatV1 :=
  ⟨f.filename, f.nb_streams, f.nb_programs, f.format_name, f.format_long_name,
   f.start_time, f.duration, f.size, f.bit_rate, f.probe_score, f.tags⟩

/-- `From<FormatV1> for Format`. -/
def formatOfV1 (f : FormatV1) : Format :=
  ⟨f.filename, f.nb_streams, f.nb_programs, f.format_name, f.format_long_name,
   f.start_time, f.duration, f.size, f.bit_rate, f.probe_score, f.tags⟩

/-- `From<Progress> for ProgressV1`; `out_time` converts the (non-negative)
`std::time::Duration` into a `time::Duration`. -/
def progressToV1 (p : Progress) : ProgressV1 :=
  ⟨p.frame, p.fps, p.bitrate, p.total_size, p.out_time_us, p.out_time_ms,
   Int.ofNat p.out_time, p.dup_frames, p.drop_frames, p.speed⟩

/-- `From<ProgressV1> for Progress`; a negative stored `out_time` clamps to
zero on the way back to `std::time::Duration`. -/
def progressOfV1 (p : ProgressV1) : Progress :=
  ⟨p.frame, p.fps, p.bitrate, p.total_size, p.out_time_us, p.out_time_ms,
   p.out_time.toNat, p.dup_frames, p.drop_frames, p.speed⟩

/-- `From<&Stats> for Version`. -/
def versionOfStats (s : Stats) : Version :=
  .V1 (formatToV1 s.imp) (s.history.map fun dp => (dp.1, progressToV1 dp.2))

/-- `From<Version> for Stats`. -/
def statsOfVersion : Version → Stats
  | .V1 f h => ⟨formatOfV1 f, h.map fun dp => (dp.1, progressOfV1 dp.2)⟩

/-- One primitive value in the encoded stream: the unit at which `bincode`
serializes.  Collection lengths (`tLen`), enum discriminants (`tDisc`) and
`Option` tags (`tTag`) are kept distinct, as `bincode` encodes them. -/
inductive Tok
  | tU8 (n : Nat)
  | tU32 (n : Nat)
  | tU64 (n : Nat)
  | tI64 (n : Int)
  | tF64 (q : ℚ)
  | tStr (s : String)
  | tLen (n : Nat)
  | tDisc (n : Nat)
  | tTag (b : Bool)
deriving DecidableEq

/-- `Encode for BincodeDuration`: `whole_seconds` then
`subsec_nanoseconds`, both as `i64`. -/
def encodeDuration (d : TimeDuration) : List Tok :=
  [.tI64 (wholeSeconds d), .tI64 (subsecNanoseconds d)]

/-- `Option<String>` encoding: a presence tag, then the value. -/
def encodeOptStr : Option String → List Tok
  | none => [.tTag false]
  | some s => [.tTag true, .tStr s]

/-- Encode every element of a list in order. -/
def encodeMany {α : Type} (enc : α → List Tok) : List α → List Tok
  | [] => []
  | x :: xs => enc x ++ encodeMany enc xs

/-- One `BTreeMap` entry: key then value. -/
def encodeStrPair (e : String × String) : List Tok :=
  [.tStr e.1, .tStr e.2]

/-- Derived `Encode for FormatV1`: fields in declaration order, the map
prefixed by its length. -/
def encodeFormatV1 (f : FormatV1) : List Tok :=
  .tStr f.filename :: .tU32 f.nb_streams :: .tU32 f.nb_programs ::
    .tStr f.format_name :: encodeOptStr f.format_long_name ++
    encodeDuration f.start_time ++ encodeDuration f.duration ++
    [.tU64 f.size, .tU64 f.bit_rate, .tU8 f.probe_score] ++
    (.tLen f.tags.length :: encodeMany encodeStrPair f.tags)

/-- Derived `Encode for ProgressV1`: fields in declaration order. -/
def encodeProgressV1 (p : ProgressV1) : List Tok :=
  [.tU64 p.frame, .tF64 p.fps, .tU64 p.bitrate, .tU64 p.total_size,
   .tU64 p.out_time_us, .tU64 p.out_time_ms] ++ encodeDuration p.out_time ++
    [.tU64 p.dup_frames, .tU64 p.drop_frames, .tF64 p.speed]

/-- One history entry `(BincodeDuration, ProgressV1)`. -/
def encodeHistEntry (e : TimeDuration × ProgressV1) : List Tok :=
  encodeDuration e.1 ++ encodeProgressV1 e.2

/-- Derived `Encode for Version`: discriminant, then the variant fields,
the history prefixed by its length. -/
def encodeVersion : Version → List Tok
  | .V1 f h =>
    .tDisc 0 :: encodeFormatV1 f ++ (.tLen h.length :: encodeMany encodeHistEntry h)

/-- Decode one `u8`. -/
def decU8 : List Tok → Option (Nat × List Tok)
  | .tU8 n :: ts => some (n, ts)
  | _ => none

/-- Decode one `u32`. -/
def decU32 : List Tok → Option (Nat × List Tok)
  | .tU32 n :: ts => some (n, ts)
  | _ => none

/-- Decode one `u64`. -/
def decU64 : List Tok → Option (Nat × List Tok)
  | .tU64 n :: ts => some (n, ts)
  | _ => none

/-- Decode one `i64`. -/
def decI64 : List Tok → Option (Int × List Tok)
  | .tI64 n :: ts => some (n, ts)
  | _ => none

/-- Decode one `f64`. -/
def decF64 : List Tok → Option (ℚ × List Tok)
  | .tF64 q :: ts => some (q, ts)
  | _ => none

/-- Decode one `String`. -/
def decStr : List Tok → Option (String × List Tok)
  | .tStr s :: ts => some (s, ts)
  | _ => none

/-- Decode one collection length. -/
def decLen : List Tok → Option (Nat × List Tok)
  | .tLen n :: ts => some (n, ts)
  | _ => none

/-- `Decode for BincodeDuration`:
`Duration::seconds(s) + Duration::nanoseconds(n)`. -/
def decDuration (ts : List Tok) : Option (TimeDuration × List Tok) := do
  let s ← decI64 ts
  let n ← decI64 s.2
  pure (s.1 * 1000000000 + n.1, n.2)

/-- Decode an `Option<String>`. -/
def decOptStr : List Tok → Option (Option String × List Tok)
  | .tTag false :: ts => some (none, ts)
  | .tTag true :: ts => (decStr ts).map fun q => (some q.1, q.2)
  | _ => none

/-- Decode exactly `n` consecutive elements. -/
def decodeN {α : Type} (dec : List Tok → Option (α × List Tok)) :
    Nat → List Tok → Option (List α × List Tok)
  | 0, ts => some ([], ts)
  | n + 1, ts => do
    let p ← dec ts
    let q ← decodeN dec n p.2
    pure (p.1 :: q.1, q.2)

/-- Decode one `BTreeMap` entry. -/
def decStrPair (ts : List Tok) : Option ((String × String) × List Tok) := do
  let k ← decStr ts
  let v ← decStr k.2
  pure ((k.1, v.1), v.2)

/-- Derived `Decode for FormatV1`. -/
def decFormatV1 (ts : List Tok) : Option (FormatV1 × List Tok) := do
  let fn ← decStr ts
  let ns ← decU32 fn.2
  let np ← decU32 ns.2
  let fm ← decStr np.2
  let fl ← decOptStr fm.2
  let st ← decDuration fl.2
  let du ← decDuration st.2
  let sz ← decU64 du.2
  let br ← decU64 sz.2
  let ps ← decU8 br.2
  let tn ← decLen ps.2
  let tg ← decodeN decStrPair tn.1 tn.2
  pure (⟨fn.1, ns.1, np.1, fm.1, fl.1, st.1, du.1, sz.1, br.1, ps.1, tg.1⟩, tg.2)

/-- Derived `Decode for ProgressV1`. -/
def decProgressV1 (ts : List Tok) : Option (ProgressV1 × List Tok) := do
  let fr ← decU64 ts
  let fp ← decF64 fr.2
  let br ← decU64 fp.2
  let sz ← decU64 br.2
  let us ← decU64 sz.2
  let ms ← decU64 us.2
  let ot ← decDuration ms.2
  let df ← decU64 ot.2
  let dr ← decU64 df.2
  let sp ← decF64 dr.2
  pure (⟨fr.1, fp.1, br.1, sz.1, us.1, ms.1, ot.1, df.1, dr.1, sp.1⟩, sp.2)

/-- Decode one history entry. -/
def decHistEntry (ts : List Tok) : Option ((TimeDuration × ProgressV1) × List Tok) := do
  let d ← decDuration ts
  let p ← decProgressV1 d.2
  pure ((d.1, p.1), p.2)

/-- Derived `Decode for Version`: read the discriminant, reject any value
other than the known variant `0`. -/
def decodeVersion : List Tok → Option (Version × List Tok)
  | .tDisc 0 :: ts => do
    let f ← decFormatV1 ts
    let n ← decLen f.2
    let h ← decodeN decHistEntry n.1 n.2
    pure (.V1 f.1 h.1, h.2)
  | _ => none

/-- A recognized non-sentinel key paired with a value that fails that key's
decoding rule (the failure conditions of the arms of `parse_kv`). -/
def decodeFails (k v : List Char) : Prop :=
  (k = "frame".data ∧ parseU64 (trimChars v) = none)
    ∨ (k = "fps".data ∧ parseF64 (trimChars v) = none)
    ∨ (k = "bitrate".data ∧ parseF64 (stripSfx "kbits/s".data (trimChars v)) = none)
    ∨ (k = "total_size".data ∧ parseU64 (trimChars v) = none)
    ∨ (k = "out_time_us".data ∧ parseU64 (trimChars v) = none)
    ∨ (k = "out_time_ms".data ∧ parseU64 (trimChars v) = none)
    ∨ (k = "out_time".data ∧ parse_time (trimChars v) = none)
    ∨ (k = "dup_frames".data ∧ parseU64 (trimChars v) = none)
    ∨ (k = "drop_frames".data ∧ parseU64 (trimChars v) = none)
    ∨ (k = "speed".data ∧ parseF64 (stripSfx ['x'] (trimChars v)) = none)

/-- A concrete session: metadata with a two-entry tag mapping and a
one-entry history. -/
def sampleStats : Stats :=
  ⟨⟨"in.mkv", 2, 1, "matroska", some "Matroska / WebM", 0, 120500000000,
    3500, 800000, 100, [("encoder", "x264"), ("title", "demo")]⟩,
   [(500000000, ⟨10, 24, 1000000, 4096, 1000000, 1000, 1000000000, 0, 0, (3 : ℚ) / 2⟩)]⟩

/-! ## Ring-buffer lemmas -/

theorem Arr.wf_new (N : Nat) {T : Type} (d : T) : (Arr.new N d).wf := by
  constructor <;> simp [Arr.new]

theorem Arr.buf_length_push {N : Nat} {T : Type} (a : Arr N T) (v : T)
    (h : a.wf) : (a.push v).buf.length = N := by
  obtain ⟨hb, hl⟩ := h
  match N, a with
  | 0, a => simpa [Arr.push] using hb
  | 1, a => simp [Arr.push, hb]
  | n + 2, a =>
    by_cases hlt : a.len < n + 2
    · simp [Arr.push, hlt, hb]
    · have hge : 2 ≤ a.buf.length := by omega
      simp only [Arr.push, if_neg hlt]
      simp [List.length_tail, hb]

theorem Arr.len_push {N : Nat} {T : Type} (a : Arr N T) (v : T)
    (h : a.wf) : (a.push v).len = min (a.len + 1) N := by
  obtain ⟨hb, hl⟩ := h
  match N, a with
  | 0, a => simp only [Arr.push]; omega
  | 1, a => simp only [Arr.push]; omega
  | n + 2, a =>
    by_cases hlt : a.len < n + 2
    · simp only [Arr.push, if_pos hlt]; omega
    · simp only [Arr.push, if_neg hlt]; omega

theorem Arr.wf_push {N : Nat} {T : Type} (a : Arr N T) (v : T)
    (h : a.wf) : (a.push v).wf := by
  refine ⟨Arr.buf_length_push a v h, ?_⟩
  rw [Arr.len_push a v h]
  omega

theorem Arr.wf_pushAll {N : Nat} {T : Type} (a : Arr N T) (vs : List T)
    (h : a.wf) : (a.pushAll vs).wf := by
  induction vs generalizing a with
  | nil => exact h
  | cons v vs ih => exact ih (a.push v) (Arr.wf_push a v h)

theorem Arr.length_as_slice {N : Nat} {T : Type} (a : Arr N T)
    (h : a.wf) : a.as_slice.length = a.len := by
  obtain ⟨hb, hl⟩ := h
  simp [Arr.as_slice, hb]
  omega

/-- Helper: taking `k + 1` elements after setting index `k` appends the new
value to the first `k` elements. -/
theorem List.take_set_succ {T : Type} :
    ∀ (l : List T) (k : Nat) (v : T), k < l.length →
      (l.set k v).take (k + 1) = l.take k ++ [v]
  | [], k, v, h => by simp at h
  | x :: xs, 0, v, _ => by simp
  | x :: xs, k + 1, v, h => by
    simp only [List.set_cons_succ, List.take_succ_cons]
    rw [List.take_set_succ xs k v (by simpa using h)]
    simp

/-- One `push` step, seen through `as_slice`: the new slice is the old slice
with the value appended, trimmed from the front to the capacity. -/
theorem Arr.as_slice_push {N : Nat} {T : Type} (a : Arr N T) (v : T)
    (h : a.wf) :
    (a.push v).as_slice = (a.as_slice ++ [v]).drop (a.len + 1 - N) := by
  obtain ⟨hb, hl⟩ := h
  match N, a with
  | 0, a =>
    have hlen : a.len = 0 := by omega
    simp [Arr.push, Arr.as_slice, hlen]
  | 1, a =>
    obtain ⟨b, hbuf⟩ := List.length_eq_one.mp hb
    interval_cases hlc : a.len
    · simp [Arr.push, Arr.as_slice, hbuf, hlc]
    · simp [Arr.push, Arr.as_slice, hbuf, hlc]
  | n + 2, a =>
    by_cases hlt : a.len < n + 2
    · have hdrop : a.len + 1 - (n + 2) = 0 := by omega
      simp only [Arr.push, hlt, if_true, Arr.as_slice, hdrop, List.drop_zero]
      exact List.take_set_succ a.buf a.len v (by omega)
    · have hlen : a.len = n + 2 := by omega
      have h1 : (a.buf.tail ++ [v]).length = n + 2 := by
        simp [List.length_tail, hb]
      simp only [Arr.push, if_neg hlt, Arr.as_slice]
      rw [hlen]
      rw [List.take_of_length_le (le_of_eq h1)]
      have h2 : a.buf.take (n + 2) = a.buf := List.take_of_length_le (le_of_eq hb)
      rw [h2]
      have h3 : n + 2 + 1 - (n + 2) = 1 := by omega
      have h4 : (a.buf ++ [v]).drop 1 = a.buf.drop 1 ++ [v] :=
        List.drop_append_of_le_length (by omega)
      rw [h3, h4, List.drop_one]

theorem Arr.len_pushAll {N : Nat} {T : Type} (a : Arr N T) (vs : List T)
    (h : a.wf) : (a.pushAll vs).len = min (a.len + vs.length) N := by
  induction vs generalizing a with
  | nil =>
    have := h.2
    simp only [Arr.pushAll, List.foldl_nil, List.length_nil]
    omega
  | cons v vs ih =>
    have h' := Arr.wf_push a v h
    have := ih (a.push v) h'
    simp only [Arr.pushAll, List.foldl_cons] at this ⊢
    rw [this, Arr.len_push a v h]
    simp [List.length_cons]
    omega

/-- The slice after pushing a whole sequence: append everything, keep only
what fits in the window from the back. -/
theorem Arr.as_slice_pushAll {N : Nat} {T : Type} (a : Arr N T) (vs : List T)
    (h : a.wf) :
    (a.pushAll vs).as_slice = (a.as_slice ++ vs).drop (a.len + vs.length - N) := by
  induction vs generalizing a with
  | nil =>
    have h0 : a.len - N = 0 := by have := h.2; omega
    simp [Arr.pushAll, h0]
  | cons v vs ih =>
    have h' := Arr.wf_push a v h
    have hslen : a.as_slice.length = a.len := Arr.length_as_slice a h
    have hN := h.2
    simp only [Arr.pushAll, List.foldl_cons] at ih ⊢
    rw [ih (a.push v) h', Arr.as_slice_push a v h, Arr.len_push a v h]
    have hd1 : ((a.as_slice ++ [v]) ++ vs).drop (a.len + 1 - N) =
        (a.as_slice ++ [v]).drop (a.len + 1 - N) ++ vs :=
      List.drop_append_of_le_length (by simp [hslen]; try omega)
    rw [← hd1, List.drop_drop]
    have hd2 : (a.as_slice ++ [v]) ++ vs = a.as_slice ++ v :: vs := by simp
    rw [hd2]
    congr 1
    simp only [List.length_cons]
    omega

/-- The central windowing fact: pushing `vs` into a fresh buffer of capacity
`N` retains exactly the last `min (vs.length) N` values, in push order. -/
theorem Arr.as_slice_pushAll_new {N : Nat} {T : Type} (d : T) (vs : List T) :
    ((Arr.new N d).pushAll vs).as_slice = vs.drop (vs.length - N) := by
  have h := Arr.wf_new N d
  rw [Arr.as_slice_pushAll (Arr.new N d) vs h]
  simp [Arr.new, Arr.as_slice]

/-- Default irrelevance of `getLastD` on non-empty lists. -/
theorem List.getLastD_ne_nil {T : Type} (l : List T) (h : l ≠ []) (d₁ d₂ : T) :
    l.getLastD d₁ = l.getLastD d₂ := by
  cases l with
  | nil => exact absurd rfl h
  | cons a l =>
    rcases hx : (a :: l).getLast? with _ | x
    · simp at hx
    · simp [List.getLastD_eq_getLast?, hx]

theorem Arr.first_eq {N : Nat} {T : Type} (a : Arr N T) (d : T) (h : a.wf) :
    a.first d = a.as_slice.headD d := by
  obtain ⟨hb, hl⟩ := h
  match N, a with
  | 0, a =>
    have hlen : a.len = 0 := by omega
    simp [Arr.first, Arr.as_slice, hlen]
  | n + 1, a =>
    by_cases hpos : 0 < a.len
    · obtain ⟨b, rest, hbuf⟩ : ∃ b rest, a.buf = b :: rest := by
        cases hbuf : a.buf with
        | nil => rw [hbuf] at hb; simp at hb
        | cons b rest => exact ⟨b, rest, rfl⟩
      obtain ⟨k, hk⟩ : ∃ k, a.len = k + 1 := ⟨a.len - 1, by omega⟩
      simp [Arr.first, hpos, Arr.as_slice, hbuf, hk]
    · have hlen : a.len = 0 := by omega
      simp [Arr.first, hlen, Arr.as_slice]

/-- Helper: the last element of a `take` is a positional read. -/
theorem List.getLastD_take {T : Type} :
    ∀ (l : List T) (k : Nat) (d : T), 0 < k → k ≤ l.length →
      (l.take k).getLastD d = l.getD (k - 1) d
  | [], k, d, hpos, hle => by simp at hle; omega
  | x :: xs, 1, d, _, _ => by simp
  | x :: xs, k + 2, d, _, hle => by
    simp only [List.take_succ_cons, List.getLastD_cons]
    have h1 : 0 < k + 1 := by omega
    have h2 : k + 1 ≤ xs.length := by simpa using hle
    have h3 : k < xs.length := by omega
    rw [List.getLastD_take xs (k + 1) x h1 h2]
    have e2 : (x :: xs).getD (k + 2 - 1) d = xs.getD k d := by
      have hk : k + 2 - 1 = k + 1 := by omega
      rw [hk]
      rfl
    rw [e2, Nat.add_sub_cancel, List.getD_eq_getElem xs x h3,
      List.getD_eq_getElem xs d h3]

theorem Arr.last_eq {N : Nat} {T : Type} (a : Arr N T) (d : T) (h : a.wf) :
    a.last d = a.as_slice.getLastD d := by
  obtain ⟨hb, hl⟩ := h
  match N, a with
  | 0, a =>
    have hlen : a.len = 0 := by omega
    simp [Arr.last, Arr.as_slice, hlen]
  | n + 1, a =>
    by_cases hpos : 0 < a.len
    · simp only [Arr.last, hpos, if_true, Arr.as_slice]
      rw [List.getLastD_take a.buf a.len d hpos (by omega)]
    · have hlen : a.len = 0 := by omega
      simp [Arr.last, hlen, Arr.as_slice]

/-! ## Codec lemmas -/

theorem tmod_natAbs_lt (a : ℤ) : (a.tmod 1000000000).natAbs < 1000000000 := by
  rcases le_or_lt 0 a with h | h
  · have h1 : 0 ≤ a.tmod 1000000000 := Int.tmod_nonneg _ h
    have h2 : a.tmod 1000000000 < 1000000000 := Int.tmod_lt_of_pos a (by norm_num)
    omega
  · have e : a.tmod 1000000000 = -((-a).tmod 1000000000) := by
      rw [Int.tmod_def, Int.tmod_def, Int.neg_tdiv]
      ring
    have h1 : 0 ≤ (-a).tmod 1000000000 := Int.tmod_nonneg _ (by omega)
    have h2 : (-a).tmod 1000000000 < 1000000000 :=
      Int.tmod_lt_of_pos (-a) (by norm_num)
    omega

theorem wholeSeconds_subsec (d : TimeDuration) :
    wholeSeconds d * 1000000000 + subsecNanoseconds d = d := by
  rw [wholeSeconds, subsecNanoseconds, mul_comm]
  exact Int.tdiv_add_tmod d 1000000000

theorem dec_encodeDuration (d : TimeDuration) (ts : List Tok) :
    decDuration (encodeDuration d ++ ts) = some (d, ts) := by
  simp [decDuration, encodeDuration, decI64, wholeSeconds_subsec]

theorem dec_encodeOptStr (o : Option String) (ts : List Tok) :
    decOptStr (encodeOptStr o ++ ts) = some (o, ts) := by
  cases o <;> simp [encodeOptStr, decOptStr, decStr]

theorem dec_encodeStrPair (e : String × String) (ts : List Tok) :
    decStrPair (encodeStrPair e ++ ts) = some (e, ts) := by
  simp [encodeStrPair, decStrPair, decStr]

theorem decodeN_encodeMany {α : Type}
    (dec : List Tok → Option (α × List Tok)) (enc : α → List Tok)
    (h : ∀ (x : α) (ts : List Tok), dec (enc x ++ ts) = some (x, ts)) :
    ∀ (l : List α) (ts : List Tok),
      decodeN dec l.length (encodeMany enc l ++ ts) = some (l, ts) := by
  intro l
  induction l with
  | nil => intro ts; simp [decodeN, encodeMany]
  | cons x xs ih =>
    intro ts
    simp [decodeN, encodeMany, List.append_assoc, h, ih]

theorem dec_encodeProgressV1 (p : ProgressV1) (ts : List Tok) :
    decProgressV1 (encodeProgressV1 p ++ ts) = some (p, ts) := by
  have h1 : decProgressV1 (encodeProgressV1 p ++ ts) =
      some (⟨p.frame, p.fps, p.bitrate, p.total_size, p.out_time_us,
        p.out_time_ms,
        wholeSeconds p.out_time * 1000000000 + subsecNanoseconds p.out_time,
        p.dup_frames, p.drop_frames, p.speed⟩, ts) := rfl
  rw [h1, wholeSeconds_subsec]

theorem dec_encodeFormatV1 (f : FormatV1) (ts : List Tok) :
    decFormatV1 (encodeFormatV1 f ++ ts) = some (f, ts) := by
  obtain ⟨fn, ns, np, fm, fl, st, du, sz, br, ps, tg⟩ := f
  cases fl with
  | none =>
    have h1 : decFormatV1
        (encodeFormatV1 ⟨fn, ns, np, fm, none, st, du, sz, br, ps, tg⟩ ++ ts) =
        (decodeN decStrPair tg.length (encodeMany encodeStrPair tg ++ ts)).bind
          (fun r => some (⟨fn, ns, np, fm, none,
            wholeSeconds st * 1000000000 + subsecNanoseconds st,
            wholeSeconds du * 1000000000 + subsecNanoseconds du,
            sz, br, ps, r.1⟩, r.2)) := rfl
    rw [h1, decodeN_encodeMany decStrPair encodeStrPair dec_encodeStrPair tg ts]
    simp [wholeSeconds_subsec]
  | some fls =>
    have h1 : decFormatV1
        (encodeFormatV1 ⟨fn, ns, np, fm, some fls, st, du, sz, br, ps, tg⟩ ++ ts) =
        (decodeN decStrPair tg.length (encodeMany encodeStrPair tg ++ ts)).bind
          (fun r => some (⟨fn, ns, np, fm, some fls,
            wholeSeconds st * 1000000000 + subsecNanoseconds st,
            wholeSeconds du * 1000000000 + subsecNanoseconds du,
            sz, br, ps, r.1⟩, r.2)) := rfl
    rw [h1, decodeN_encodeMany decStrPair encodeStrPair dec_encodeStrPair tg ts]
    simp [wholeSeconds_subsec]

theorem dec_encodeHistEntry (e : TimeDuration × ProgressV1) (ts : List Tok) :
    decHistEntry (encodeHistEntry e ++ ts) = some (e, ts) := by
  have h1 : decHistEntry (encodeHistEntry e ++ ts) =
      (decProgressV1 (encodeProgressV1 e.2 ++ ts)).bind
        (fun pr =>
          some ((wholeSeconds e.1 * 1000000000 + subsecNanoseconds e.1, pr.1),
            pr.2)) := rfl
  rw [h1, dec_encodeProgressV1]
  simp [wholeSeconds_subsec]

theorem decodeVersion_encodeVersion (v : Version) (ts : List Tok) :
    decodeVersion (encodeVersion v ++ ts) = some (v, ts) := by
  obtain ⟨f, h⟩ := v
  have e1 : encodeVersion (.V1 f h) ++ ts =
      .tDisc 0 ::
        (encodeFormatV1 f ++
          (.tLen h.length :: (encodeMany encodeHistEntry h ++ ts))) := by
    simp [encodeVersion]
  have h1 : ∀ x : List Tok,
      decodeVersion (.tDisc 0 :: x) =
        (decFormatV1 x).bind
          (fun fd => (decLen fd.2).bind fun n =>
            (decodeN decHistEntry n.1 n.2).bind fun hs =>
              some (.V1 fd.1 hs.1, hs.2)) := fun _ => rfl
  rw [e1, h1, dec_encodeFormatV1]
  simp [decLen, decodeN_encodeMany decHistEntry encodeHistEntry dec_encodeHistEntry]

theorem progressOfV1_toV1 (p : Progress) : progressOfV1 (progressToV1 p) = p := by
  obtain ⟨fr, fp, br, sz, us, ms, ot, df, dr, sp⟩ := p
  simp [progressToV1, progressOfV1]

theorem formatOfV1_toV1 (f : Format) : formatOfV1 (formatToV1 f) = f := rfl

theorem statsOfVersion_versionOfStats (s : Stats) :
    statsOfVersion (versionOfStats s) = s := by
  obtain ⟨imp, history⟩ := s
  simp only [versionOfStats, statsOfVersion, formatOfV1_toV1, List.map_map,
    Stats.mk.injEq, true_and]
  induction history with
  | nil => rfl
  | cons e h ih =>
    simp only [List.map_cons, Function.comp_apply, progressOfV1_toV1,
      Prod.mk.eta, ih]

/-! ## Claim C1 -/

/-- C1: for every session with a non-empty history (any tag mapping),
decoding the encoded snapshot reproduces the session exactly; each stored
time offset is normalized to a (whole seconds, sub-second nanoseconds)
pair. -/
theorem c1_snapshot_roundtrip (s : Stats) (_hne : s.history ≠ []) :
    decodeVersion (encodeVersion (versionOfStats s)) = some (versionOfStats s, [])
      ∧ statsOfVersion (versionOfStats s) = s
      ∧ ∀ d : TimeDuration,
          wholeSeconds d * 1000000000 + subsecNanoseconds d = d
            ∧ (subsecNanoseconds d).natAbs < 1000000000 := by
  refine ⟨?_, statsOfVersion_versionOfStats s,
    fun d => ⟨wholeSeconds_subsec d, tmod_natAbs_lt d⟩⟩
  simpa using decodeVersion_encodeVersion (versionOfStats s) []

/-- Witness for C1 at a concrete session (two-entry tag mapping, one-entry
history). -/
theorem c1_snapshot_roundtrip_witness :
    sampleStats.history ≠ []
      ∧ (decodeVersion (encodeVersion (versionOfStats sampleStats)) =
            some (versionOfStats sampleStats, [])
          ∧ statsOfVersion (versionOfStats sampleStats) = sampleStats
          ∧ ∀ d : TimeDuration,
              wholeSeconds d * 1000000000 + subsecNanoseconds d = d
                ∧ (subsecNanoseconds d).natAbs < 1000000000) := by
  have hne : sampleStats.history ≠ [] := by simp [sampleStats]
  exact ⟨hne, c1_snapshot_roundtrip sampleStats hne⟩

/-! ## Claims C2, C5, C9 (ring buffer) -/

/-- C2: pushing any sequence into a fresh buffer of any capacity retains
exactly the last `min n c` values in push order; capacity 0 always retains
nothing. -/
theorem c2_window_retention (c : Nat) {T : Type} (d : T) (vs : List T) :
    ((Arr.new c d).pushAll vs).as_slice = vs.drop (vs.length - c)
      ∧ ((Arr.new 0 d).pushAll vs).as_slice = [] := by
  refine ⟨Arr.as_slice_pushAll_new d vs, ?_⟩
  rw [Arr.as_slice_pushAll_new d vs]
  simp

/-- C5 counterexample: a buffer of capacity 2 constructed with default `5`
returns `0` (the `u64` type default), not the construction default `5`,
from `first`/`last` while empty. -/
theorem c5_counterexample :
    (Arr.new 2 (5 : Nat)).first 0 = 0
      ∧ (Arr.new 2 (5 : Nat)).first 0 ≠ 5
      ∧ (Arr.new 2 (5 : Nat)).last 0 = 0
      ∧ (Arr.new 2 (5 : Nat)).last 0 ≠ 5 := by
  refine ⟨rfl, ?_, rfl, ?_⟩ <;> decide

/-- C5 (amended): for every capacity, `first`/`last` on an empty buffer
never fail and return the element type's `Default::default()` value (not
the value supplied at construction). -/
theorem c5_amended_first_last_default (c : Nat) {T : Type} (td : T)
    (a : Arr c T) (h : a.len = 0) :
    a.first td = td ∧ a.last td = td := by
  match c, a with
  | 0, a => exact ⟨rfl, rfl⟩
  | n + 1, a => simp [Arr.first, Arr.last, h]

/-- Witness for the amended C5 on a concrete empty buffer (capacity 3,
construction default 7, type default 0). -/
theorem c5_amended_witness :
    (Arr.new 3 (7 : Nat)).len = 0
      ∧ ((Arr.new 3 (7 : Nat)).first 0 = 0 ∧ (Arr.new 3 (7 : Nat)).last 0 = 0) :=
  ⟨by decide, c5_amended_first_last_default 3 0 (Arr.new 3 7) (by decide)⟩

/-- C9: the length invariant `len ≤ N` holds after construction and is
preserved by every push, and every index the operations read or write is
within the backing store's bounds. -/
theorem c9_len_invariant (c : Nat) {T : Type} (d : T) (vs : List T) :
    ((Arr.new c d).pushAll vs).wf
      ∧ (∀ (a : Arr c T) (v : T), a.wf → (a.push v).wf)
      ∧ (∀ a : Arr c T, a.wf →
          a.len ≤ c
            ∧ (a.len < c → a.len < a.buf.length)
            ∧ (0 < a.len → a.len - 1 < a.buf.length ∧ 0 < a.buf.length)) := by
  refine ⟨Arr.wf_pushAll _ vs (Arr.wf_new c d),
    fun a v h => Arr.wf_push a v h, fun a h => ?_⟩
  obtain ⟨hb, hl⟩ := h
  refine ⟨hl, ?_, ?_⟩ <;> omega

/-- Witness for C9 on a concrete capacity-2 buffer. -/
theorem c9_witness :
    ((Arr.new 2 (0 : Nat)).pushAll [1, 2, 3]).wf
      ∧ ((Arr.new 2 (0 : Nat)).push 7).wf
      ∧ (Arr.new 2 (0 : Nat)).len ≤ 2 := by
  have h := c9_len_invariant 2 (0 : Nat) [1, 2, 3]
  exact ⟨h.1, h.2.1 _ 7 (by decide), (h.2.2 _ (by decide)).1⟩

/-! ## Parser evaluation lemmas -/

theorem parseF64_24p0 : parseF64 ['2', '4', '.', '0'] = some 24 := by
  have h1 : splitExp ['2', '4', '.', '0'] = (['2', '4', '.', '0'], none) := by decide
  have h2 : splitOnce '.' ['2', '4', '.', '0'] = some (['2', '4'], ['0']) := by decide
  simp +decide only [parseF64, reduceIte, h1, parseMantissa, h2]
  norm_num [digitsVal, show '2'.toNat = 50 from by decide,
    show '4'.toNat = 52 from by decide, show '0'.toNat = 48 from by decide]

theorem parseF64_1000 : parseF64 ['1', '0', '0', '0'] = some 1000 := by
  have h1 : splitExp ['1', '0', '0', '0'] = (['1', '0', '0', '0'], none) := by decide
  have h2 : splitOnce '.' ['1', '0', '0', '0'] = none := by decide
  simp +decide only [parseF64, reduceIte, h1, parseMantissa, h2]
  norm_num [digitsVal, show '1'.toNat = 49 from by decide,
    show '0'.toNat = 48 from by decide]

theorem f64AsU64_million : f64AsU64 ((1000 : ℚ) * 1000) = 1000000 := by
  have h : ((1000 : ℚ) * 1000) = ((1000000 : Nat) : ℚ) := by norm_num
  rw [f64AsU64, h]
  rw [if_neg (by norm_num)]
  rw [Int.floor_natCast]
  decide

/-! ## Claim C3 -/

/-- C3: the five-line epoch `frame=10`, `fps=24.0`, `bitrate=1000kbits/s`,
`out_time=00:00:01.000000`, `progress=continue` yields exactly one record,
with `frame = 10`, `fps = 24`, `bitrate = 1000000` (suffix stripped, parsed
as float, scaled by 1000, truncated) and `out_time` of exactly one second;
the following call reports the clean end of the stream. -/
theorem c3_example_epoch :
    nextProgress Progress.default
        ["frame=10\n".data, "fps=24.0\n".data, "bitrate=1000kbits/s\n".data,
          "out_time=00:00:01.000000\n".data, "progress=continue\n".data] =
      (.record ⟨10, 24, 1000000, 0, 0, 0, 1000000000, 0, 0, 0⟩, [])
      ∧ nextProgress Progress.default [] = (.eof, []) := by
  refine ⟨?_, rfl⟩
  have s1 : splitOnce '=' (trimChars ['f', 'r', 'a', 'm', 'e', '=', '1', '0', '\n']) =
      some (['f', 'r', 'a', 'm', 'e'], ['1', '0']) := by decide
  have s2 : splitOnce '=' (trimChars ['f', 'p', 's', '=', '2', '4', '.', '0', '\n']) =
      some (['f', 'p', 's'], ['2', '4', '.', '0']) := by decide
  have s3 : splitOnce '='
      (trimChars ['b', 'i', 't', 'r', 'a', 't', 'e', '=', '1', '0', '0', '0',
        'k', 'b', 'i', 't', 's', '/', 's', '\n']) =
      some (['b', 'i', 't', 'r', 'a', 't', 'e'],
        ['1', '0', '0', '0', 'k', 'b', 'i', 't', 's', '/', 's']) := by decide
  have s4 : splitOnce '='
      (trimChars ['o', 'u', 't', '_', 't', 'i', 'm', 'e', '=', '0', '0', ':',
        '0', '0', ':', '0', '1', '.', '0', '0', '0', '0', '0', '0', '\n']) =
      some (['o', 'u', 't', '_', 't', 'i', 'm', 'e'],
        ['0', '0', ':', '0', '0', ':', '0', '1', '.', '0', '0', '0', '0', '0', '0']) := by
    decide
  have s5 : splitOnce '='
      (trimChars ['p', 'r', 'o', 'g', 'r', 'e', 's', 's', '=', 'c', 'o', 'n',
        't', 'i', 'n', 'u', 'e', '\n']) =
      some (['p', 'r', 'o', 'g', 'r', 'e', 's', 's'],
        ['c', 'o', 'n', 't', 'i', 'n', 'u', 'e']) := by decide
  have t1 : trimChars ['1', '0'] = ['1', '0'] := by decide
  have t2 : trimChars ['2', '4', '.', '0'] = ['2', '4', '.', '0'] := by decide
  have t3 : trimChars ['1', '0', '0', '0', 'k', 'b', 'i', 't', 's', '/', 's'] =
      ['1', '0', '0', '0', 'k', 'b', 'i', 't', 's', '/', 's'] := by decide
  have t4 : trimChars ['0', '0', ':', '0', '0', ':', '0', '1', '.', '0', '0',
      '0', '0', '0', '0'] =
      ['0', '0', ':', '0', '0', ':', '0', '1', '.', '0', '0', '0', '0', '0', '0'] := by
    decide
  have hu : parseU64 ['1', '0'] = some 10 := by decide
  have hstrip : stripSfx ['k', 'b', 'i', 't', 's', '/', 's']
      ['1', '0', '0', '0', 'k', 'b', 'i', 't', 's', '/', 's'] =
      ['1', '0', '0', '0'] := by decide
  have htime : parse_time ['0', '0', ':', '0', '0', ':', '0', '1', '.', '0',
      '0', '0', '0', '0', '0'] = some 1000000000 := by decide
  simp +decide only [nextProgress, parse_kv, reduceIte, s1, s2, s3, s4, s5,
    t1, t2, t3, t4, hu, hstrip, htime, parseF64_24p0, parseF64_1000,
    f64AsU64_million, Option.map_some', Progress.default]

/-! ## Claims C6, C7 (parser error handling) -/

/-- C6: a line whose key is recognized but whose value fails that key's
decoding rule makes the `next` call return a hard error; no default is
substituted. -/
theorem c6_malformed_value_is_error (p : Progress) (line k v : List Char)
    (rest : List (List Char))
    (hsplit : splitOnce '=' (trimChars line) = some (k, v))
    (hbad : decodeFails k v) :
    nextProgress p (line :: rest) = (.perror, rest) := by
  have hkv : parse_kv p k v = none := by
    rcases hbad with ⟨hk, hv⟩ | ⟨hk, hv⟩ | ⟨hk, hv⟩ | ⟨hk, hv⟩ | ⟨hk, hv⟩ |
      ⟨hk, hv⟩ | ⟨hk, hv⟩ | ⟨hk, hv⟩ | ⟨hk, hv⟩ | ⟨hk, hv⟩ <;>
      subst hk <;> simp +decide [parse_kv, hv]
  simp only [nextProgress, hsplit, hkv]

/-- Witness for C6: `fps=not_a_number` halts the stream with an error. -/
theorem c6_witness :
    splitOnce '=' (trimChars "fps=not_a_number\n".data) =
        some ("fps".data, "not_a_number".data)
      ∧ decodeFails "fps".data "not_a_number".data
      ∧ nextProgress Progress.default ["fps=not_a_number\n".data] = (.perror, []) := by
  have h1 : splitOnce '=' (trimChars "fps=not_a_number\n".data) =
      some ("fps".data, "not_a_number".data) := by decide
  have h2 : decodeFails "fps".data "not_a_number".data :=
    Or.inr (Or.inl ⟨rfl, by decide⟩)
  exact ⟨h1, h2,
    c6_malformed_value_is_error Progress.default _ _ _ [] h1 h2⟩

/-- C7: a line without `=` (for example a blank line), or with an
unrecognized key, is skipped: no error, no record finalization, and the
accumulating record is left untouched. -/
theorem c7_skip_lines (p : Progress) (line : List Char)
    (rest : List (List Char)) :
    (splitOnce '=' (trimChars line) = none →
        nextProgress p (line :: rest) = nextProgress p rest)
      ∧ ∀ k v, splitOnce '=' (trimChars line) = some (k, v) →
          k ∉ recognizedKeys →
          nextProgress p (line :: rest) = nextProgress p rest := by
  constructor
  · intro h
    simp only [nextProgress, h]
  · intro k v hs hk
    simp only [recognizedKeys, List.mem_cons, List.not_mem_nil, or_false,
      not_or] at hk
    obtain ⟨h1, h2, h3, h4, h5, h6, h7, h8, h9, h10, h11⟩ := hk
    have hkv : parse_kv p k v = some (false, p) := by
      simp [parse_kv, h1, h2, h3, h4, h5, h6, h7, h8, h9, h10, h11]
    simp only [nextProgress, hs, hkv]

/-- Witness for C7: a blank line and a line with the unknown key `foo` are
both skipped without effect. -/
theorem c7_witness :
    splitOnce '=' (trimChars "\n".data) = none
      ∧ nextProgress Progress.default ["\n".data] =
          nextProgress Progress.default []
      ∧ splitOnce '=' (trimChars "foo=bar\n".data) =
          some ("foo".data, "bar".data)
      ∧ "foo".data ∉ recognizedKeys
      ∧ nextProgress Progress.default ["foo=bar\n".data] =
          nextProgress Progress.default [] := by
  have h1 : splitOnce '=' (trimChars "\n".data) = none := by decide
  have h2 : splitOnce '=' (trimChars "foo=bar\n".data) =
      some ("foo".data, "bar".data) := by decide
  have h3 : "foo".data ∉ recognizedKeys := by decide
  exact ⟨h1, (c7_skip_lines Progress.default _ []).1 h1, h2, h3,
    (c7_skip_lines Progress.default _ []).2 _ _ h2 h3⟩

/-! ## Rolling aggregate view lemmas -/

theorem ChartValues.update_history (s : ChartValues) (v : ℚ) :
    (s.update v).history = s.history.push ((s.history.last (0, 0)).1 + 1, v) := rfl

theorem ChartValues.update_baseline (s : ChartValues) (v : ℚ) :
    (s.update v).baseline =
      ((((s.update v).history.first (0, 0)).1, s.baseline.1.2),
        (((s.update v).history.last (0, 0)).1, s.baseline.2.2)) := rfl

theorem ChartValues.update_min (s : ChartValues) (v : ℚ) :
    (s.update v).min =
      (s.update v).history.as_slice.foldl (fun m q => Min.min m q.2) f64MAX := rfl

theorem ChartValues.update_max (s : ChartValues) (v : ℚ) :
    (s.update v).max =
      (s.update v).history.as_slice.foldl (fun m q => Max.max m q.2) 0 := rfl

theorem applyChart_append (b : ℚ) (vs : List ℚ) (v : ℚ) :
    applyChart b (vs ++ [v]) = ChartValues.update (applyChart b vs) v := by
  simp [applyChart, List.foldl_append]

theorem getLastD_map_fst (l : List (ℚ × ℚ)) (d : ℚ × ℚ) :
    (l.getLastD d).1 = (l.map Prod.fst).getLastD d.1 := by
  induction l generalizing d with
  | nil => rfl
  | cons a l ih =>
    simp only [List.getLastD_cons, List.map_cons]
    exact ih a

theorem getLastD_range'_cast (s k : Nat) (d : ℚ) :
    ((List.range' s (k + 1)).map (fun i : Nat => (i : ℚ))).getLastD d =
      ((s + k : Nat) : ℚ) := by
  induction k generalizing s d with
  | zero => simp [List.range'_succ]
  | succ k ih =>
    rw [List.range'_succ]
    simp only [List.map_cons, List.getLastD_cons]
    rw [ih (s + 1) ((s : ℚ))]
    congr 1
    omega

theorem lastx_of_fst (n : Nat) (l : List (ℚ × ℚ))
    (hfst : l.map Prod.fst =
      (List.range' (n + 1 - min n 1000) (min n 1000)).map (fun i : Nat => (i : ℚ))) :
    (l.getLastD (0, 0)).1 = (n : ℚ) := by
  rw [getLastD_map_fst, hfst]
  cases hk : min n 1000 with
  | zero =>
    have h0 : n = 0 := by omega
    simp [h0]
  | succ m =>
    rw [getLastD_range'_cast]
    congr 1
    omega

theorem range'_window_step (n : Nat) :
    (List.range' (n + 1 - min n 1000) (min n 1000) ++ [n + 1]).drop
        (min n 1000 + 1 - 1000) =
      List.range' (n + 2 - min (n + 1) 1000) (min (n + 1) 1000) := by
  rcases le_or_lt 1000 n with h | h
  · have hk : min n 1000 = 1000 := by omega
    have hk' : min (n + 1) 1000 = 1000 := by omega
    rw [hk, hk', show 1000 + 1 - 1000 = 1 from by omega]
    rw [List.drop_append_of_le_length (by simp)]
    rw [show n + 1 - 1000 = n - 999 from by omega,
      show n + 2 - 1000 = n - 999 + 1 from by omega]
    have e1 : List.range' (n - 999) 1000 =
        (n - 999) :: List.range' (n - 999 + 1) 999 :=
      List.range'_succ (n - 999) 999 1
    have e2 : List.range' (n - 999 + 1) 1000 =
        List.range' (n - 999 + 1) 999 ++ [n - 999 + 1 + 1 * 999] :=
      List.range'_concat _ _
    rw [e1]
    simp only [List.drop_one, List.tail_cons]
    rw [e2, show n - 999 + 1 + 1 * 999 = n + 1 from by omega]
  · have hk : min n 1000 = n := by omega
    have hk' : min (n + 1) 1000 = n + 1 := by omega
    rw [hk, hk']
    rw [show n + 1 - n = 1 from by omega, show n + 1 - 1000 = 0 from by omega,
      show n + 2 - (n + 1) = 1 from by omega]
    rw [List.drop_zero]
    have e2 : List.range' 1 (n + 1) = List.range' 1 n ++ [1 + 1 * n] :=
      List.range'_concat _ _
    rw [show (1 : Nat) + 1 * n = n + 1 from by omega] at e2
    rw [e2]

theorem drop_window_step {α : Type} (vs : List α) (v : α) :
    (vs.drop (vs.length - 1000) ++ [v]).drop (min vs.length 1000 + 1 - 1000) =
      (vs ++ [v]).drop (vs.length + 1 - 1000) := by
  rcases le_or_lt 1000 vs.length with h | h
  · rw [show min vs.length 1000 + 1 - 1000 = 1 from by omega]
    rw [List.drop_append_of_le_length (by simp; omega)]
    rw [List.drop_drop]
    rw [List.drop_append_of_le_length (by omega)]
    rw [show vs.length - 1000 + 1 = vs.length + 1 - 1000 from by omega]
  · rw [show vs.length - 1000 = 0 from by omega,
      show min vs.length 1000 + 1 - 1000 = 0 from by omega,
      show vs.length + 1 - 1000 = 0 from by omega]
    simp

/-- The chart-history invariant: well-formedness, window length, the
x-coordinates as a run of consecutive integers ending at the update count,
and the y-coordinates as the last 1000 update values. -/
theorem chart_inv (b : ℚ) (vs : List ℚ) :
    (applyChart b vs).history.wf
      ∧ (applyChart b vs).history.len = min vs.length 1000
      ∧ (applyChart b vs).history.as_slice.map Prod.fst =
          (List.range' (vs.length + 1 - min vs.length 1000) (min vs.length 1000)).map
            (fun i : Nat => (i : ℚ))
      ∧ (applyChart b vs).history.as_slice.map Prod.snd =
          vs.drop (vs.length - 1000) := by
  induction vs using List.reverseRecOn with
  | nil =>
    exact ⟨⟨List.length_replicate 1000 _, Nat.zero_le 1000⟩, rfl, rfl, rfl⟩
  | append_singleton vs v ih =>
    obtain ⟨hwf, hlen, hfst, hsnd⟩ := ih
    have happ := applyChart_append b vs v
    have hx : ((applyChart b vs).history.last (0, 0)).1 = (vs.length : ℚ) := by
      rw [Arr.last_eq _ _ hwf]
      exact lastx_of_fst vs.length _ hfst
    have hlapp : (vs ++ [v]).length = vs.length + 1 := by simp
    refine ⟨?_, ?_, ?_, ?_⟩
    · rw [happ, ChartValues.update_history]
      exact Arr.wf_push _ _ hwf
    · rw [happ, ChartValues.update_history, Arr.len_push _ _ hwf, hlen, hlapp]
      omega
    · rw [happ, ChartValues.update_history, hx,
        Arr.as_slice_push _ _ hwf, hlen,
        List.map_drop, List.map_append, hfst]
      simp only [List.map_cons, List.map_nil]
      rw [show ((vs.length : ℚ) + 1) = ((vs.length + 1 : Nat) : ℚ) from by push_cast; ring]
      have key := congrArg (List.map (fun i : Nat => (i : ℚ))) (range'_window_step vs.length)
      rw [List.map_drop, List.map_append] at key
      simp only [List.map_cons, List.map_nil] at key
      rw [key, hlapp]
    · rw [happ, ChartValues.update_history,
        Arr.as_slice_push _ _ hwf, hlen,
        List.map_drop, List.map_append, hsnd]
      simp only [List.map_cons, List.map_nil]
      rw [drop_window_step, hlapp]

theorem chart_slice_ne_nil (b : ℚ) (vs : List ℚ) (h : vs ≠ []) :
    (applyChart b vs).history.as_slice ≠ [] := by
  obtain ⟨hwf, hlen, _, _⟩ := chart_inv b vs
  have hsl := Arr.length_as_slice _ hwf
  have hpos : 0 < vs.length := List.length_pos.mpr h
  intro hcon
  rw [hcon] at hsl
  simp only [List.length_nil] at hsl
  omega

theorem chart_baseline_y (b : ℚ) (vs : List ℚ) :
    (applyChart b vs).baseline.1.2 = b ∧ (applyChart b vs).baseline.2.2 = b := by
  induction vs using List.reverseRecOn with
  | nil => exact ⟨rfl, rfl⟩
  | append_singleton vs v ih =>
    rw [applyChart_append, ChartValues.update_baseline]
    exact ih

theorem chart_minmax (b : ℚ) (vs : List ℚ) (h : vs ≠ []) :
    (applyChart b vs).min =
        ((applyChart b vs).history.as_slice.map Prod.snd).foldl Min.min f64MAX
      ∧ (applyChart b vs).max =
        ((applyChart b vs).history.as_slice.map Prod.snd).foldl Max.max 0 := by
  rcases List.eq_nil_or_concat vs with rfl | ⟨vs', v, rfl⟩
  · exact absurd rfl h
  · simp only [List.concat_eq_append]
    rw [applyChart_append]
    constructor
    · rw [ChartValues.update_min, List.foldl_map]
    · rw [ChartValues.update_max, List.foldl_map]

theorem foldl_min_char (l : List ℚ) (a : ℚ) :
    l.foldl Min.min a ≤ a
      ∧ (∀ x ∈ l, l.foldl Min.min a ≤ x)
      ∧ (l.foldl Min.min a = a ∨ l.foldl Min.min a ∈ l) := by
  induction l generalizing a with
  | nil => exact ⟨le_refl a, by simp, Or.inl rfl⟩
  | cons x xs ih =>
    obtain ⟨h1, h2, h3⟩ := ih (Min.min a x)
    simp only [List.foldl_cons]
    refine ⟨le_trans h1 (min_le_left a x), ?_, ?_⟩
    · intro y hy
      rcases List.mem_cons.mp hy with rfl | hy
      · exact le_trans h1 (min_le_right a y)
      · exact h2 y hy
    · rcases h3 with he | hm
      · rcases le_total a x with hax | hxa
        · exact Or.inl (by rw [he, min_eq_left hax])
        · exact Or.inr (by rw [he, min_eq_right hxa]; exact List.mem_cons_self x xs)
      · exact Or.inr (List.mem_cons_of_mem x hm)

theorem foldl_max_char {α : Type} [LinearOrder α] (l : List α) (a : α) :
    a ≤ l.foldl Max.max a
      ∧ (∀ x ∈ l, x ≤ l.foldl Max.max a)
      ∧ (l.foldl Max.max a = a ∨ l.foldl Max.max a ∈ l) := by
  induction l generalizing a with
  | nil => exact ⟨le_refl a, by simp, Or.inl rfl⟩
  | cons x xs ih =>
    obtain ⟨h1, h2, h3⟩ := ih (Max.max a x)
    simp only [List.foldl_cons]
    refine ⟨le_trans (le_max_left a x) h1, ?_, ?_⟩
    · intro y hy
      rcases List.mem_cons.mp hy with rfl | hy
      · exact le_trans (le_max_right a y) h1
      · exact h2 y hy
    · rcases h3 with he | hm
      · rcases le_total x a with hxa | hax
        · exact Or.inl (by rw [he, max_eq_left hxa])
        · exact Or.inr (by rw [he, max_eq_right hax]; exact List.mem_cons_self x xs)
      · exact Or.inr (List.mem_cons_of_mem x hm)

theorem foldl_max_init {α : Type} [LinearOrder α] (l : List α) (a c : α) :
    l.foldl Max.max (Max.max a c) = Max.max a (l.foldl Max.max c) := by
  induction l generalizing c with
  | nil => rfl
  | cons x xs ih =>
    simp only [List.foldl_cons]
    rw [max_assoc]
    exact ih (Max.max c x)

theorem spark_max_eq (vs : List ℚ) :
    (applySpark vs).max = (vs.map (fun v => roundAsU64 (v * 100))).foldl Max.max 0 := by
  induction vs using List.reverseRecOn with
  | nil => rfl
  | append_singleton vs v ih =>
    simp only [applySpark, List.foldl_append, List.foldl_cons, List.foldl_nil,
      List.map_append, List.map_cons, List.map_nil]
    show Max.max (applySpark vs).max (roundAsU64 (v * 100)) = _
    rw [ih]

theorem foldl_max_replicate_le {α : Type} [LinearOrder α] (k : Nat) (c a : α)
    (h : c ≤ a) : (List.replicate k c).foldl Max.max a = a := by
  induction k with
  | zero => rfl
  | succ k ih =>
    rw [List.replicate_succ, List.foldl_cons, max_eq_left h]
    exact ih

theorem chain_range'_cast : ∀ (k s : Nat),
    List.Chain' (fun x y : ℚ => y = x + 1)
      ((List.range' s k).map (fun i : Nat => (i : ℚ)))
  | 0, s => by simp
  | 1, s => by simp [List.range'_succ]
  | k + 2, s => by
    rw [List.range'_succ, List.range'_succ]
    simp only [List.map_cons]
    rw [List.chain'_cons]
    constructor
    · push_cast
      ring
    · have h := chain_range'_cast (k + 1) (s + 1)
      rw [List.range'_succ] at h
      simpa using h

/-! ## Claims C4, C8, C10 -/

/-- C4 counterexample: after 1001 updates with value `-1` (more than the
1000-slot window), the chart's maximum is `0` while the maximum of the
retained y-values is `-1` — the recompute loop starts its maximum at `0.0`,
so the claim as stated fails for negative values. -/
theorem c4_counterexample :
    1000 < (List.replicate 1001 (-1 : ℚ)).length
      ∧ isMaxOf (-1 : ℚ)
          ((applyChart 0 (List.replicate 1001 (-1 : ℚ))).history.as_slice.map Prod.snd)
      ∧ (applyChart 0 (List.replicate 1001 (-1 : ℚ))).max = 0
      ∧ ¬ isMaxOf (applyChart 0 (List.replicate 1001 (-1 : ℚ))).max
          ((applyChart 0 (List.replicate 1001 (-1 : ℚ))).history.as_slice.map Prod.snd) := by
  have hlen : (List.replicate 1001 (-1 : ℚ)).length = 1001 :=
    List.length_replicate 1001 _
  have hne : List.replicate 1001 (-1 : ℚ) ≠ [] := by
    apply List.length_pos.mp
    rw [hlen]
    omega
  have hys : (applyChart 0 (List.replicate 1001 (-1 : ℚ))).history.as_slice.map Prod.snd =
      List.replicate 1000 (-1 : ℚ) := by
    rw [(chart_inv 0 (List.replicate 1001 (-1 : ℚ))).2.2.2]
    rw [List.drop_replicate, hlen]
  have hmax : (applyChart 0 (List.replicate 1001 (-1 : ℚ))).max = 0 := by
    rw [(chart_minmax 0 _ hne).2, hys]
    exact foldl_max_replicate_le 1000 (-1) 0 (by norm_num)
  refine ⟨by rw [hlen]; omega, ⟨?_, ?_⟩, hmax, ?_⟩
  · rw [hys]
    exact List.mem_replicate.mpr ⟨by norm_num, rfl⟩
  · rw [hys]
    intro x hx
    rw [(List.mem_replicate.mp hx).2]
  · rw [hmax, hys]
    intro hcon
    have := (List.mem_replicate.mp hcon.1).2
    norm_num at this

/-- C4 (amended): after more than `capacity` updates of finite values, the
chart view's minimum is the minimum of the retained window's y-values, its
maximum is the maximum of `0` and the retained window's y-values (the
rescan seeds the maximum at `0.0`, so it is clamped below at zero), and the
sparkline view's running maximum is the maximum over the transformed values
of the entire update history — monotone and unaffected by eviction. -/
theorem c4_amended_minmax (b : ℚ) (vs : List ℚ) (hn : 1000 < vs.length)
    (hb : ∀ v ∈ vs, v ≤ f64MAX) :
    isMinOf (applyChart b vs).min
        ((applyChart b vs).history.as_slice.map Prod.snd)
      ∧ (∃ M, isMaxOf M ((applyChart b vs).history.as_slice.map Prod.snd)
          ∧ (applyChart b vs).max = Max.max 0 M)
      ∧ isMaxOf (applySpark vs).max
          (0 :: vs.map (fun v => roundAsU64 (v * 100)))
      ∧ (∀ (s : SparklineValues) (v : ℚ), s.max ≤ (s.update v).max) := by
  have hne : vs ≠ [] := by
    intro hcon
    rw [hcon] at hn
    simp at hn
  have hys := (chart_inv b vs).2.2.2
  have hysne : (applyChart b vs).history.as_slice.map Prod.snd ≠ [] := by
    have := chart_slice_ne_nil b vs hne
    simpa using this
  have hysbound : ∀ y ∈ (applyChart b vs).history.as_slice.map Prod.snd, y ≤ f64MAX := by
    intro y hy
    rw [hys] at hy
    exact hb y (List.drop_subset _ vs hy)
  refine ⟨?_, ?_, ?_, ?_⟩
  · -- chart minimum
    rw [(chart_minmax b vs hne).1]
    obtain ⟨h1, h2, h3⟩ :=
      foldl_min_char ((applyChart b vs).history.as_slice.map Prod.snd) f64MAX
    refine ⟨?_, h2⟩
    rcases h3 with he | hm
    · obtain ⟨y0, hy0⟩ := List.exists_mem_of_ne_nil _ hysne
      have : y0 = ((applyChart b vs).history.as_slice.map Prod.snd).foldl Min.min f64MAX :=
        le_antisymm (by rw [he]; exact hysbound y0 hy0) (h2 y0 hy0)
      rw [← this]
      exact hy0
    · exact hm
  · -- chart maximum
    rcases hysl : (applyChart b vs).history.as_slice.map Prod.snd with _ | ⟨y0, ytl⟩
    · exact absurd hysl hysne
    · obtain ⟨h1, h2, h3⟩ := foldl_max_char ytl y0
      refine ⟨ytl.foldl Max.max y0, ⟨?_, ?_⟩, ?_⟩
      · rcases h3 with he | hm
        · rw [he]; exact List.mem_cons_self y0 ytl
        · exact List.mem_cons_of_mem y0 hm
      · intro x hx
        rcases List.mem_cons.mp hx with rfl | hx
        · exact h1
        · exact h2 x hx
      · rw [(chart_minmax b vs hne).2, hysl, List.foldl_cons,
          show Max.max (0 : ℚ) y0 = Max.max 0 y0 from rfl, foldl_max_init]
  · -- sparkline maximum over the full history
    rw [spark_max_eq]
    obtain ⟨h1, h2, h3⟩ := foldl_max_char (vs.map (fun v => roundAsU64 (v * 100))) 0
    refine ⟨?_, ?_⟩
    · rcases h3 with he | hm
      · rw [he]; exact List.mem_cons_self 0 _
      · exact List.mem_cons_of_mem 0 hm
    · intro x hx
      rcases List.mem_cons.mp hx with rfl | hx
      · exact h1
      · exact h2 x hx
  · -- sparkline maximum is monotone
    intro s v
    show s.max ≤ Max.max s.max (roundAsU64 (v * 100))
    exact le_max_left _ _

/-- Witness for the amended C4: 1001 updates with value `1`. -/
theorem c4_amended_witness :
    1000 < (List.replicate 1001 (1 : ℚ)).length
      ∧ (∀ v ∈ List.replicate 1001 (1 : ℚ), v ≤ f64MAX)
      ∧ (isMinOf (applyChart 0 (List.replicate 1001 (1 : ℚ))).min
            ((applyChart 0 (List.replicate 1001 (1 : ℚ))).history.as_slice.map Prod.snd)
          ∧ (∃ M, isMaxOf M
                ((applyChart 0 (List.replicate 1001 (1 : ℚ))).history.as_slice.map Prod.snd)
              ∧ (applyChart 0 (List.replicate 1001 (1 : ℚ))).max = Max.max 0 M)
          ∧ isMaxOf (applySpark (List.replicate 1001 (1 : ℚ))).max
              (0 :: (List.replicate 1001 (1 : ℚ)).map (fun v => roundAsU64 (v * 100)))
          ∧ (∀ (s : SparklineValues) (v : ℚ), s.max ≤ (s.update v).max)) := by
  have h1 : 1000 < (List.replicate 1001 (1 : ℚ)).length := by
    rw [List.length_replicate]
    omega
  have h2 : ∀ v ∈ List.replicate 1001 (1 : ℚ), v ≤ f64MAX := by
    intro v hv
    rw [(List.mem_replicate.mp hv).2]
    norm_num [f64MAX]
  exact ⟨h1, h2, c4_amended_minmax 0 _ h1 h2⟩

/-- C8: after every update the two-point baseline spans exactly the live
window's x-extent — left point at the first retained point's x, right point
at the last retained point's x, both at the construction-time reference
height. -/
theorem c8_baseline_spans (b : ℚ) (vs : List ℚ) (h : vs ≠ []) :
    (applyChart b vs).history.as_slice ≠ []
      ∧ (applyChart b vs).baseline.1 =
          (((applyChart b vs).history.as_slice.headD (0, 0)).1, b)
      ∧ (applyChart b vs).baseline.2 =
          (((applyChart b vs).history.as_slice.getLastD (0, 0)).1, b) := by
  rcases List.eq_nil_or_concat vs with rfl | ⟨vs', v, rfl⟩
  · exact absurd rfl h
  · obtain ⟨hwf', _, _, _⟩ := chart_inv b vs'
    have hby := chart_baseline_y b vs'
    have hwfpush : (ChartValues.update (applyChart b vs') v).history.wf := by
      rw [ChartValues.update_history]
      exact Arr.wf_push _ _ hwf'
    simp only [List.concat_eq_append] at h ⊢
    refine ⟨chart_slice_ne_nil b (vs' ++ [v]) h, ?_, ?_⟩
    · rw [applyChart_append, ChartValues.update_baseline,
        Arr.first_eq _ _ hwfpush, hby.1]
    · rw [applyChart_append, ChartValues.update_baseline,
        Arr.last_eq _ _ hwfpush, hby.2]

/-- Witness for C8 with baseline height 500 and two updates. -/
theorem c8_witness :
    ([ (1 : ℚ), 2 ] ≠ [])
      ∧ ((applyChart 500 [(1 : ℚ), 2]).history.as_slice ≠ []
          ∧ (applyChart 500 [(1 : ℚ), 2]).baseline.1 =
              (((applyChart 500 [(1 : ℚ), 2]).history.as_slice.headD (0, 0)).1, 500)
          ∧ (applyChart 500 [(1 : ℚ), 2]).baseline.2 =
              (((applyChart 500 [(1 : ℚ), 2]).history.as_slice.getLastD (0, 0)).1, 500)) := by
  have h : ([ (1 : ℚ), 2 ] : List ℚ) ≠ [] := by simp
  exact ⟨h, c8_baseline_spans 500 [1, 2] h⟩

/-- C10: the retained x-coordinates always form the run of consecutive
integers ending at the total update count — each update pushes the last
retained x plus one (starting from the default point `(0, 0)`, so the first
update produces x = 1), successive retained x's differ by exactly one, and
after eviction the x of the newest point is still the update count, never
restarting at zero. -/
theorem c10_x_coordinates (b : ℚ) (vs : List ℚ) :
    (applyChart b vs).history.as_slice.map Prod.fst =
        (List.range' (vs.length + 1 - min vs.length 1000) (min vs.length 1000)).map
          (fun i : Nat => (i : ℚ))
      ∧ List.Chain' (fun x y : ℚ => y = x + 1)
          ((applyChart b vs).history.as_slice.map Prod.fst)
      ∧ (vs ≠ [] →
          ((applyChart b vs).history.as_slice.map Prod.fst).getLastD 0 =
            (vs.length : ℚ) ∧ (vs.length : ℚ) ≠ 0)
      ∧ ∀ (s : ChartValues) (v : ℚ),
          (s.update v).history =
            s.history.push ((s.history.last (0, 0)).1 + 1, v) := by
  obtain ⟨hwf, hlen, hfst, _⟩ := chart_inv b vs
  refine ⟨hfst, ?_, ?_, fun s v => rfl⟩
  · rw [hfst]
    exact chain_range'_cast (min vs.length 1000) _
  · intro hne
    have hpos : 0 < vs.length := List.length_pos.mpr hne
    constructor
    · have hlast := lastx_of_fst vs.length _ hfst
      rw [getLastD_map_fst] at hlast
      simpa using hlast
    · exact Nat.cast_ne_zero.mpr (by omega)

/-- Witness for C10 after a single update: the retained x-coordinate is 1,
not 0. -/
theorem c10_witness :
    ([(5 : ℚ)] ≠ [])
      ∧ ((applyChart 0 [(5 : ℚ)]).history.as_slice.map Prod.fst).getLastD 0 =
          (([(5 : ℚ)].length : ℚ))
      ∧ (([(5 : ℚ)].length : ℚ)) ≠ 0 := by
  have h : ([(5 : ℚ)] : List ℚ) ≠ [] := by simp
  have hc := (c10_x_coordinates 0 [(5 : ℚ)]).2.2.1 h
  exact ⟨h, hc.1, hc.2⟩

end FFprog
